import Mathlib

/-!
Verification development for the simplegfs master: a shallow embedding of the
chunk registry (src/master/chunk_manager.go) and of the master server's
ReportChunk / lease-extension handlers (src/unnamed/part_001), with theorems
settling the testable properties of the specification.

Modelling conventions:
- Go maps become Lean functions into Option (extensional maps).
- The uint64 chunk-handle counter is a Nat; the increment in addChunk is
  taken modulo 2^64 as in machine arithmetic.  int64 values in ReportChunk
  are Int with explicit two's-complement wrapping.
- Fallible Go code returning error becomes Except String (the error strings
  are the ones in the source); a Go panic (index out of range in random)
  becomes a distinguished result constructor carrying no post-state.
- Locks are dropped: each handler body is a pure state transformer.
- gob encode/decode plus file I/O in Store/Load is modelled as the identity
  on the durable triple (handle counter, chunk map, inverse map).
-/

namespace SimpleGFS

/-- Pointwise update of a String-keyed extensional map (Go map assignment). -/
def fupdS {α : Type} (f : String → α) (k : String) (v : α) : String → α :=
  fun q => if q = k then v else f q

/-- Pointwise update of a Nat-keyed extensional map (Go map assignment). -/
def fupdN {α : Type} (f : Nat → α) (k : Nat) (v : α) : Nat → α :=
  fun q => if q = k then v else f q

/-- Persistent information of a specific chunk (struct Chunk). -/
structure Chunk where
  ChunkHandle : Nat
deriving DecidableEq, Repr

/-- In-memory detailed information of a specific chunk (struct ChunkInfo). -/
structure ChunkInfo where
  Handle : Nat
  Locations : List String
deriving DecidableEq, Repr

/-- (path, chunk index) pair (struct PathIndex). -/
structure PathIndex where
  Path : String
  Index : Nat
deriving DecidableEq, Repr

/-- The chunk registry state (struct ChunkManager, lock dropped). -/
structure ChunkManager where
  chunkHandle : Nat
  chunks : String → Option (Nat → Option Chunk)
  handles : Nat → Option PathIndex
  locations : Nat → Option ChunkInfo
  chunkServers : List String

/-- NewChunkManager: fresh registry with empty maps and counter 0. -/
def NewChunkManager (servers : List String) : ChunkManager :=
  { chunkHandle := 0
    chunks := fun _ => none
    handles := fun _ => none
    locations := fun _ => none
    chunkServers := servers }

/-- The empty inner map created by `m.chunks[path] = make(map[uint64]*Chunk)`. -/
def emptyInner : Nat → Option Chunk := fun _ => none

/-- Lookup of the ChunkRecord stored for a (path, index) pair:
`m.chunks[path][chunkIndex]` with Go's missing-entry semantics. -/
def chunkAt (m : ChunkManager) (path : String) (chunkIndex : Nat) : Option Chunk :=
  (m.chunks path).bind fun inner => inner chunkIndex

/-- GetPathIndexFromHandle: look up the inverse map, error when absent. -/
def GetPathIndexFromHandle (m : ChunkManager) (handle : Nat) : Except String PathIndex :=
  match m.handles handle with
  | none => .error "chunk handle not found"
  | some pathIndex => .ok pathIndex

/-- Helper insert: add an element to an array unless already present
(the Go loop scans for equality and returns the array unchanged on a hit,
otherwise appends). -/
def insert (array : List String) (elem : String) : List String :=
  if elem ∈ array then array else array ++ [elem]

/-- SetChunkLocation: create the location entry if absent, then insert the
address; always returns nil error (second component). -/
def SetChunkLocation (m : ChunkManager) (handle : Nat) (address : String) :
    ChunkManager × Option String :=
  let info := match m.locations handle with
    | some info => info
    | none => { Handle := handle, Locations := [] }
  ({ m with
      locations :=
        fupdN m.locations handle
          (some { info with Locations := insert info.Locations address }) },
   none)

/-- getChunkInfo: path lookup, then index lookup, then location lookup,
with the three error strings of the source. -/
def getChunkInfo (m : ChunkManager) (path : String) (chunkIndex : Nat) :
    Except String ChunkInfo :=
  match m.chunks path with
  | none => .error "File not found."
  | some val =>
    match val chunkIndex with
    | none => .error "Chunk index not found."
    | some chunk =>
      match m.locations chunk.ChunkHandle with
      | none => .error "Locations not available."
      | some chunkInfo => .ok chunkInfo

/-- FindLocations: lock-stripped wrapper around getChunkInfo. -/
def FindLocations (m : ChunkManager) (path : String) (chunkIndex : Nat) :
    Except String ChunkInfo :=
  getChunkInfo m path chunkIndex

/-- random: `ret[i] = array[perm[i]]` for i < num, where perm is the output of
rand.Perm (passed in as a parameter to expose the nondeterminism).  `none`
models the index-out-of-range panic when i ≥ len(perm) (or perm[i] out of
range of array, impossible for a true permutation). -/
def random (array : List String) (num : Nat) (perm : List Nat) : Option (List String) :=
  match num, perm with
  | 0, _ => some []
  | _ + 1, [] => none
  | n + 1, j :: rest =>
    match array[j]? with
    | none => none
    | some s => (random array n rest).map (fun l => s :: l)

/-- Result of addChunk: conflict error ("Chunk index already exists.") with the
post-state, a panic (process death inside random, no observable post-state),
or success with the returned ChunkInfo and post-state. -/
inductive AddChunkRes where
  | conflict (m : ChunkManager)
  | panic
  | ok (info : ChunkInfo) (m : ChunkManager)

/-- The post-state of a non-panicking addChunk result. -/
def resState : AddChunkRes → Option ChunkManager
  | .conflict m => some m
  | .panic => none
  | .ok _ m => some m

/-- The ChunkInfo of a successful addChunk result. -/
def resInfo : AddChunkRes → Option ChunkInfo
  | .ok info _ => some info
  | _ => none

/-- addChunk: create the inner map when the path is new, fail on an existing
(path, index) pair, otherwise allocate handle = counter, bump the counter
(uint64 arithmetic), record the ChunkRecord, seed the location entry with 3
randomly chosen servers, and record the inverse entry. -/
def addChunk (m : ChunkManager) (path : String) (chunkIndex : Nat)
    (perm : List Nat) : AddChunkRes :=
  let chunks0 := match m.chunks path with
    | none => fupdS m.chunks path (some emptyInner)
    | some _ => m.chunks
  let inner := (chunks0 path).getD emptyInner
  match inner chunkIndex with
  | some _ => .conflict { m with chunks := chunks0 }
  | none =>
    let handle := m.chunkHandle
    match random m.chunkServers 3 perm with
    | none => .panic
    | some locs =>
      .ok { Handle := handle, Locations := locs }
        { m with
            chunkHandle := (handle + 1) % 2 ^ 64
            chunks := fupdS chunks0 path
              (some (fupdN inner chunkIndex (some { ChunkHandle := handle })))
            handles := fupdN m.handles handle
              (some { Path := path, Index := chunkIndex })
            locations := fupdN m.locations handle
              (some { Handle := handle, Locations := locs }) }

/-- AddChunk: lock-stripped wrapper around addChunk. -/
def AddChunk (m : ChunkManager) (path : String) (chunkIndex : Nat)
    (perm : List Nat) : AddChunkRes :=
  addChunk m path chunkIndex perm

/-- The durable triple serialized by Store (struct persistentData).  The gob
encoding and the file are abstracted away: the snapshot is the triple. -/
structure PersistentData where
  Handle : Nat
  Chunks : String → Option (Nat → Option Chunk)
  Handles : Nat → Option PathIndex

/-- Store: snapshot the durable triple (counter, chunk map, inverse map). -/
def Store (m : ChunkManager) : PersistentData :=
  { Handle := m.chunkHandle, Chunks := m.chunks, Handles := m.handles }

/-- Load: install the decoded triple, leaving `locations` (and the server
list) untouched. -/
def Load (m : ChunkManager) (data : PersistentData) : ChunkManager :=
  { m with chunkHandle := data.Handle, chunks := data.Chunks, handles := data.Handles }

/-- A mutating registry operation, for reasoning about reachable states.
FindLocations and GetPathIndexFromHandle are pure reads (their embeddings
above do not produce a state) and therefore do not appear. -/
inductive Op where
  | add (path : String) (index : Nat) (perm : List Nat)
  | setLoc (handle : Nat) (addr : String)
deriving DecidableEq, Repr

/-- Whether an operation is an AddChunk call. -/
def Op.isAdd : Op → Bool
  | .add _ _ _ => true
  | .setLoc _ _ => false

/-- The (path, index) arguments of the AddChunk calls in a trace. -/
def addPairs (ops : List Op) : List (String × Nat) :=
  ops.filterMap fun op =>
    match op with
    | .add p i _ => some (p, i)
    | .setLoc _ _ => none

/-- Run a trace of mutating operations, accumulating, in order, the
(path, index, handle) triples of the successful allocations.  `none` means
the process panicked partway (inside random). -/
def runAcc (m : ChunkManager) :
    List Op → Option (ChunkManager × List (String × Nat × Nat))
  | [] => some (m, [])
  | op :: rest =>
    match op with
    | .add p i perm =>
      match addChunk m p i perm with
      | .conflict m1 => runAcc m1 rest
      | .panic => none
      | .ok info m1 =>
        (runAcc m1 rest).map fun r => (r.1, (p, i, info.Handle) :: r.2)
    | .setLoc h a => runAcc (SetChunkLocation m h a).1 rest

/-- Modelled from the spec: per-handle lease state (struct LeaseInfo of the
Lease Authority, whose implementation is not under src/): primary address,
replica list, expiration timestamp. -/
structure LeaseInfo where
  primary : String
  replicas : List String
  expiration : Nat
deriving DecidableEq, Repr

/-- Modelled from the spec: the per-handle step of
`ChunkManager.ExtendLease(chunkserverAddress, handles)` (called by
csExtendLease in the master server but not under src/): reset the handle's
expiration to now + lease duration only if the address is the handle's
current primary; a request from a non-primary (or for a handle with no lease)
is silently ignored and no error is reported. -/
def leaseStep (now dur : Nat) (addr : String)
    (ls : Nat → Option LeaseInfo) (h : Nat) : Nat → Option LeaseInfo :=
  match ls h with
  | some l =>
    if l.primary = addr then
      fupdN ls h (some { l with expiration := now + dur })
    else ls
  | none => ls

/-- Modelled from the spec: `ChunkManager.ExtendLease` processes its handle
batch by folding leaseStep over the handles. -/
def extendLease (leases : Nat → Option LeaseInfo) (now dur : Nat)
    (addr : String) (hs : List Nat) : Nat → Option LeaseInfo :=
  hs.foldl (leaseStep now dur addr) leases

/-- Modelled from the spec: the fixed chunk size (the constant ChunkSize used
by ReportChunk is defined outside src/; the spec fixes it at 64 MB). -/
def ChunkSize : Nat := 64 * 1024 * 1024

/-- Reinterpret a uint64 value as int64 (two's complement). -/
def toInt64 (u : Nat) : Int :=
  if u % 2 ^ 64 < 2 ^ 63 then ((u % 2 ^ 64 : Nat) : Int)
  else ((u % 2 ^ 64 : Nat) : Int) - 2 ^ 64

/-- Wrap an integer into the int64 range (two's complement overflow). -/
def wrap64i (x : Int) : Int :=
  let r := x % 2 ^ 64
  if r < 2 ^ 63 then r else r - 2 ^ 64

/-- Modelled from the spec: the master server state needed by ReportChunk is
the chunk registry plus the namespace manager's recorded file lengths
(NamespaceManager.GetFileLength / SetFileLength are not under src/;
GetFileLength fails with a namespace error for an unknown path). -/
structure MasterState where
  cm : ChunkManager
  fileLengths : String → Option Int

/-- ReportChunk handler: resolve the handle to its PathIndex (returning the
registry error when unknown), add the reporting server to the handle's
location set, then compute `int64(ChunkSize * index) + length` in machine
arithmetic and raise the recorded file length to it only when it strictly
exceeds the current value.  The second component is the returned error. -/
def reportChunk (s : MasterState) (handle : Nat) (server : String)
    (length : Int) : MasterState × Option String :=
  match GetPathIndexFromHandle s.cm handle with
  | .error e => (s, some e)
  | .ok pathIndex =>
    let cm1 := (SetChunkLocation s.cm handle server).1
    match s.fileLengths pathIndex.Path with
    | none => ({ s with cm := cm1 }, some "file length not found")
    | some fileLength =>
      let calculated := wrap64i (toInt64 (ChunkSize * pathIndex.Index) + length)
      if fileLength < calculated then
        ({ cm := cm1,
           fileLengths := fupdS s.fileLengths pathIndex.Path (some calculated) },
         none)
      else
        ({ s with cm := cm1 }, none)

/-- Run a batch of ReportChunk calls (handle, server, length). -/
def runReports (s : MasterState) (calls : List (Nat × String × Int)) : MasterState :=
  calls.foldl (fun t c => (reportChunk t c.1 c.2.1 c.2.2).1) s

/-- Per-add argument validity: the permutation handed to random is a
permutation of the indices of the registered server list (what rand.Perm
produces).  setLoc operations carry no permutation. -/
def permOk (op : Op) (n : Nat) : Prop :=
  match op with
  | .add _ _ perm => perm.Perm (List.range n)
  | .setLoc _ _ => True

/-- Post-condition read off a finished (non-panicking) run, for the handle
monotonicity claim: the handles returned so far are pairwise strictly
increasing in allocation order, and the counter strictly dominates each. -/
def C1post : Option (ChunkManager × List (String × Nat × Nat)) → Prop
  | none => True
  | some (m1, as) =>
    (as.map fun t => t.2.2).Pairwise (· < ·) ∧
      ∀ t ∈ as, t.2.2 < m1.chunkHandle

/-- Post-condition for the allocation/inverse-map claim: every allocation
(p, i, h) of the trace is inverted by GetPathIndexFromHandle, and every
handle never allocated in the trace yields the handle-not-found error. -/
def C4post : Option (ChunkManager × List (String × Nat × Nat)) → Prop
  | none => True
  | some (m1, as) =>
    (∀ p i h, (p, i, h) ∈ as →
      GetPathIndexFromHandle m1 h = .ok { Path := p, Index := i }) ∧
    (∀ h, (∀ p i, (p, i, h) ∉ as) →
      GetPathIndexFromHandle m1 h = .error "chunk handle not found")

/-- Post-condition for the seeded-locations claim: every (path, index) pair
holding a ChunkRecord has its locations entry present, so FindLocations
succeeds (and in particular never fails with "Locations not available."). -/
def C6post : Option (ChunkManager × List (String × Nat × Nat)) → Prop
  | none => True
  | some (m1, _) =>
    ∀ p i c, chunkAt m1 p i = some c → ∃ ci, FindLocations m1 p i = .ok ci

/-- Post-condition for the duplicate-free-replicas claim: every location list
in the registry is duplicate-free. -/
def C9post : Option (ChunkManager × List (String × Nat × Nat)) → Prop
  | none => True
  | some (m1, _) => ∀ h info, m1.locations h = some info → info.Locations.Nodup

/-- A concrete registry holding the single chunk ("/f", 0) ↦ handle 0, as
produced by one successful AddChunk on servers A, B, C. -/
def exampleCM : ChunkManager :=
  { chunkHandle := 1
    chunks := fupdS (fun _ => none) "/f"
      (some (fupdN (fun _ => none) 0 (some { ChunkHandle := 0 })))
    handles := fupdN (fun _ => none) 0 (some { Path := "/f", Index := 0 })
    locations := fupdN (fun _ => none) 0
      (some { Handle := 0, Locations := ["A", "B", "C"] })
    chunkServers := ["A", "B", "C"] }

/-- A concrete master state over exampleCM in which file "/f" has recorded
length 0. -/
def exampleMS : MasterState :=
  { cm := exampleCM, fileLengths := fupdS (fun _ => none) "/f" (some (0 : Int)) }

/-- A concrete lease table for exercising extendLease: handle 0 is leased to
primary "A" until time 100. -/
def exampleLeases : Nat → Option LeaseInfo :=
  fupdN (fun _ => none) 0
    (some { primary := "A", replicas := ["A", "B", "C"], expiration := 100 })

/-- A small demonstration trace: two AddChunk calls on distinct indexes. -/
def demoOps : List Op := [Op.add "/f" 0 [0, 1, 2], Op.add "/f" 1 [0, 1, 2]]

/-- Registry invariant along a trace, relating the state to the list of
(path, index, handle) allocations made so far: the inverse map holds exactly
the allocated triples, every allocated handle lies strictly below the handle
counter, the counter counts the allocations, and the handles were handed out
in strictly increasing order. -/
def RegInv (m : ChunkManager) (as : List (String × Nat × Nat)) : Prop :=
  (∀ p i h, (p, i, h) ∈ as → m.handles h = some { Path := p, Index := i }) ∧
  (∀ h, (m.handles h).isSome → ∃ p i, (p, i, h) ∈ as) ∧
  (∀ p i h, (p, i, h) ∈ as → h < m.chunkHandle) ∧
  m.chunkHandle = as.length ∧
  (as.map fun t => t.2.2).Pairwise (· < ·)

/-- Location-seeding invariant: every ChunkRecord's handle has a location
entry (allocation seeds it; SetChunkLocation only adds entries). -/
def LocInv (m : ChunkManager) : Prop :=
  ∀ p i c, chunkAt m p i = some c → (m.locations c.ChunkHandle).isSome

/-- Duplicate-freedom invariant for every replica location list. -/
def NodupInv (m : ChunkManager) : Prop :=
  ∀ h info, m.locations h = some info → info.Locations.Nodup

/-! ### Lemmas about map updates -/

theorem fupdS_self {α : Type} (f : String → α) (k : String) (v : α) :
    fupdS f k v k = v := by
  simp [fupdS]

theorem fupdS_ne {α : Type} (f : String → α) {k q : String} (v : α) (h : q ≠ k) :
    fupdS f k v q = f q := by
  simp [fupdS, h]

theorem fupdN_self {α : Type} (f : Nat → α) (k : Nat) (v : α) :
    fupdN f k v k = v := by
  simp [fupdN]

theorem fupdN_ne {α : Type} (f : Nat → α) {k q : Nat} (v : α) (h : q ≠ k) :
    fupdN f k v q = f q := by
  simp [fupdN, h]

theorem fupdS_fupdS {α : Type} (f : String → α) (k : String) (v w : α) :
    fupdS (fupdS f k v) k w = fupdS f k w := by
  funext q
  by_cases h : q = k <;> simp [fupdS, h]

/-! ### Characterization of addChunk -/

theorem addChunk_conflict_eq {m : ChunkManager} {p : String} {i : Nat}
    {perm : List Nat} {m1 : ChunkManager}
    (h : addChunk m p i perm = .conflict m1) :
    m1 = m ∧ ∃ inner c, m.chunks p = some inner ∧ inner i = some c := by
  cases hcp : m.chunks p with
  | none =>
    exfalso
    simp only [addChunk, hcp, fupdS_self, Option.getD_some] at h
    rw [show emptyInner i = none from rfl] at h
    rcases hr : random m.chunkServers 3 perm with _ | locs <;> rw [hr] at h <;>
      exact AddChunkRes.noConfusion h
  | some inner =>
    simp only [addChunk, hcp, Option.getD_some] at h
    cases hii : inner i with
    | none =>
      exfalso
      rw [hii] at h
      rcases hr : random m.chunkServers 3 perm with _ | locs <;> rw [hr] at h <;>
        exact AddChunkRes.noConfusion h
    | some c =>
      rw [hii] at h
      refine ⟨?_, inner, c, rfl, hii⟩
      cases h
      rfl

theorem addChunk_ok_eq {m : ChunkManager} {p : String} {i : Nat}
    {perm : List Nat} {info : ChunkInfo} {m1 : ChunkManager}
    (h : addChunk m p i perm = .ok info m1) :
    ((m.chunks p).getD emptyInner) i = none ∧
    random m.chunkServers 3 perm = some info.Locations ∧
    info.Handle = m.chunkHandle ∧
    m1 = { m with
            chunkHandle := (m.chunkHandle + 1) % 2 ^ 64
            chunks := fupdS m.chunks p
              (some (fupdN ((m.chunks p).getD emptyInner) i
                (some { ChunkHandle := m.chunkHandle })))
            handles := fupdN m.handles m.chunkHandle
              (some { Path := p, Index := i })
            locations := fupdN m.locations m.chunkHandle
              (some { Handle := m.chunkHandle, Locations := info.Locations }) } := by
  cases hcp : m.chunks p with
  | none =>
    simp only [addChunk, hcp, fupdS_self, Option.getD_some, Option.getD_none] at h ⊢
    rw [show emptyInner i = none from rfl] at h
    rcases hr : random m.chunkServers 3 perm with _ | locs <;> rw [hr] at h
    · exact absurd h (by intro hc; exact AddChunkRes.noConfusion hc)
    · cases h
      exact ⟨rfl, rfl, rfl, by rw [fupdS_fupdS]⟩
  | some inner =>
    simp only [addChunk, hcp, Option.getD_some] at h ⊢
    cases hii : inner i with
    | some c =>
      exfalso
      rw [hii] at h
      exact AddChunkRes.noConfusion h
    | none =>
      rw [hii] at h
      rcases hr : random m.chunkServers 3 perm with _ | locs <;> rw [hr] at h
      · exact absurd h (by intro hc; exact AddChunkRes.noConfusion hc)
      · cases h
        exact ⟨rfl, rfl, rfl, rfl⟩

theorem chunkAt_addChunk_ok {m : ChunkManager} {p : String} {i : Nat}
    {perm : List Nat} {info : ChunkInfo} {m1 : ChunkManager}
    (h : addChunk m p i perm = .ok info m1) (p' : String) (i' : Nat) :
    chunkAt m1 p' i' =
      if p' = p ∧ i' = i then some { ChunkHandle := m.chunkHandle }
      else chunkAt m p' i' := by
  obtain ⟨-, -, -, hm⟩ := addChunk_ok_eq h
  subst hm
  by_cases hp : p' = p
  · subst hp
    by_cases hi : i' = i
    · subst hi
      simp [chunkAt, fupdS_self, fupdN_self]
    · cases hmp : m.chunks p' <;>
        simp [chunkAt, fupdS_self, fupdN_ne _ _ hi, hi, hmp, emptyInner]
  · simp [chunkAt, fupdS_ne _ _ hp, hp]

/-! ### Lemmas about random -/

theorem random_length (array : List String) :
    ∀ (n : Nat) (perm : List Nat) (l : List String),
      random array n perm = some l → l.length = n := by
  intro n
  induction n with
  | zero =>
    intro perm l h
    simp only [random] at h
    cases h
    rfl
  | succ k ih =>
    intro perm l h
    cases perm with
    | nil => exact absurd h (by simp [random])
    | cons j rest =>
      simp only [random] at h
      cases hj : array[j]? with
      | none => rw [hj] at h; exact absurd h (by simp)
      | some s =>
        rw [hj] at h
        cases hr : random array k rest with
        | none => rw [hr] at h; exact absurd h (by simp)
        | some l0 =>
          rw [hr] at h
          cases h
          simp [ih rest l0 hr]

theorem random_mem (array : List String) :
    ∀ (n : Nat) (perm : List Nat) (l : List String),
      random array n perm = some l → ∀ x ∈ l, x ∈ array := by
  intro n
  induction n with
  | zero =>
    intro perm l h
    simp only [random] at h
    cases h
    intro x hx
    exact absurd hx (List.not_mem_nil x)
  | succ k ih =>
    intro perm l h
    cases perm with
    | nil => exact absurd h (by simp [random])
    | cons j rest =>
      simp only [random] at h
      cases hj : array[j]? with
      | none => rw [hj] at h; exact absurd h (by simp)
      | some s =>
        rw [hj] at h
        cases hr : random array k rest with
        | none => rw [hr] at h; exact absurd h (by simp)
        | some l0 =>
          rw [hr] at h
          cases h
          intro x hx
          rcases List.mem_cons.mp hx with hx | hx
          · exact hx ▸ List.getElem?_mem hj
          · exact ih rest l0 hr x hx

theorem random_index (array : List String) :
    ∀ (n : Nat) (perm : List Nat) (l : List String),
      random array n perm = some l →
      ∀ x ∈ l, ∃ j ∈ perm, array[j]? = some x := by
  intro n
  induction n with
  | zero =>
    intro perm l h
    simp only [random] at h
    cases h
    intro x hx
    exact absurd hx (List.not_mem_nil x)
  | succ k ih =>
    intro perm l h
    cases perm with
    | nil => exact absurd h (by simp [random])
    | cons j rest =>
      simp only [random] at h
      cases hj : array[j]? with
      | none => rw [hj] at h; exact absurd h (by simp)
      | some s =>
        rw [hj] at h
        cases hr : random array k rest with
        | none => rw [hr] at h; exact absurd h (by simp)
        | some l0 =>
          rw [hr] at h
          cases h
          intro x hx
          rcases List.mem_cons.mp hx with hx | hx
          · exact ⟨j, List.mem_cons_self j rest, hx ▸ hj⟩
          · obtain ⟨j', hj', hx'⟩ := ih rest l0 hr x hx
            exact ⟨j', List.mem_cons_of_mem j hj', hx'⟩

theorem random_nodup (array : List String) (hA : array.Nodup) :
    ∀ (n : Nat) (perm : List Nat), perm.Nodup →
      ∀ l : List String, random array n perm = some l → l.Nodup := by
  intro n
  induction n with
  | zero =>
    intro perm _ l h
    simp only [random] at h
    cases h
    exact List.nodup_nil
  | succ k ih =>
    intro perm hperm l h
    cases perm with
    | nil => exact absurd h (by simp [random])
    | cons j rest =>
      simp only [random] at h
      cases hj : array[j]? with
      | none => rw [hj] at h; exact absurd h (by simp)
      | some s =>
        rw [hj] at h
        cases hr : random array k rest with
        | none => rw [hr] at h; exact absurd h (by simp)
        | some l0 =>
          rw [hr] at h
          cases h
          have hrest : rest.Nodup := (List.nodup_cons.mp hperm).2
          refine List.nodup_cons.mpr ⟨?_, ih rest hrest l0 hr⟩
          intro hs
          obtain ⟨j', hj', hx'⟩ := random_index array k rest l0 hr s hs
          have hjlt : j < array.length := (List.getElem?_eq_some_iff.mp hj).1
          have : j = j' := List.getElem?_inj hjlt hA (hj.trans hx'.symm)
          exact (List.nodup_cons.mp hperm).1 (this ▸ hj')

theorem random_none_of_short (array : List String) :
    ∀ (n : Nat) (perm : List Nat), perm.length < n → random array n perm = none := by
  intro n
  induction n with
  | zero => intro perm h; exact absurd h (Nat.not_lt_zero _)
  | succ k ih =>
    intro perm h
    cases perm with
    | nil => rfl
    | cons j rest =>
      simp only [random]
      cases hj : array[j]? with
      | none => rfl
      | some s =>
        rw [ih rest (Nat.lt_of_succ_lt_succ (by simpa using h))]
        rfl

theorem random_some_of_valid (array : List String) :
    ∀ (n : Nat) (perm : List Nat), (∀ j ∈ perm, j < array.length) →
      n ≤ perm.length → ∃ l, random array n perm = some l := by
  intro n
  induction n with
  | zero => intro perm _ _; exact ⟨[], rfl⟩
  | succ k ih =>
    intro perm hvalid hlen
    cases perm with
    | nil => exact absurd hlen (by simp)
    | cons j rest =>
      have hj : j < array.length := hvalid j (List.mem_cons_self j rest)
      obtain ⟨l0, hl0⟩ := ih rest
        (fun j' hj' => hvalid j' (List.mem_cons_of_mem j hj'))
        (Nat.le_of_succ_le_succ (by simpa using hlen))
      refine ⟨array[j] :: l0, ?_⟩
      simp [random, List.getElem?_eq_getElem hj, hl0]

/-! ### Basic lemmas about SetChunkLocation -/

theorem setLoc_chunkHandle (m : ChunkManager) (h : Nat) (a : String) :
    (SetChunkLocation m h a).1.chunkHandle = m.chunkHandle := rfl

theorem setLoc_handles (m : ChunkManager) (h : Nat) (a : String) :
    (SetChunkLocation m h a).1.handles = m.handles := rfl

theorem setLoc_chunks (m : ChunkManager) (h : Nat) (a : String) :
    (SetChunkLocation m h a).1.chunks = m.chunks := rfl

theorem setLoc_chunkServers (m : ChunkManager) (h : Nat) (a : String) :
    (SetChunkLocation m h a).1.chunkServers = m.chunkServers := rfl

theorem setLoc_locations_some {m : ChunkManager} {h : Nat} {info : ChunkInfo}
    (a : String) (hl : m.locations h = some info) :
    (SetChunkLocation m h a).1.locations =
      fupdN m.locations h (some { info with Locations := insert info.Locations a }) := by
  simp [SetChunkLocation, hl]

theorem setLoc_locations_none {m : ChunkManager} {h : Nat} (a : String)
    (hl : m.locations h = none) :
    (SetChunkLocation m h a).1.locations =
      fupdN m.locations h (some { Handle := h, Locations := [a] }) := by
  simp [SetChunkLocation, hl, insert]

/-! ### Preservation of the registry invariant -/

theorem regInv_init (servers : List String) : RegInv (NewChunkManager servers) [] := by
  refine ⟨?_, ?_, ?_, rfl, ?_⟩
  · intro p i h hmem
    exact absurd hmem (List.not_mem_nil _)
  · intro h hsome
    exact absurd hsome (by simp [NewChunkManager])
  · intro p i h hmem
    exact absurd hmem (List.not_mem_nil _)
  · simp

theorem regInv_addChunk_ok {m : ChunkManager} {as : List (String × Nat × Nat)}
    {p : String} {i : Nat} {perm : List Nat} {info : ChunkInfo} {m1 : ChunkManager}
    (hinv : RegInv m as) (hlt : m.chunkHandle + 1 < 2 ^ 64)
    (h : addChunk m p i perm = .ok info m1) :
    RegInv m1 (as ++ [(p, i, info.Handle)]) := by
  obtain ⟨h1, h2, h3, h4, h5⟩ := hinv
  obtain ⟨-, -, hH, hm⟩ := addChunk_ok_eq h
  have hmod : (m.chunkHandle + 1) % 2 ^ 64 = m.chunkHandle + 1 := Nat.mod_eq_of_lt hlt
  subst hm
  rw [hH]
  refine ⟨?_, ?_, ?_, ?_, ?_⟩
  · intro p' i' h' hmem
    rcases List.mem_append.mp hmem with hmem | hmem
    · have hne : h' ≠ m.chunkHandle := Nat.ne_of_lt (h3 p' i' h' hmem)
      show fupdN m.handles m.chunkHandle _ h' = _
      rw [fupdN_ne _ _ hne]
      exact h1 p' i' h' hmem
    · rcases List.mem_singleton.mp hmem with heq
      obtain ⟨hp, hi, hh⟩ : p' = p ∧ i' = i ∧ h' = m.chunkHandle := by
        simpa [Prod.ext_iff] using heq
      subst hp; subst hi; subst hh
      show fupdN m.handles m.chunkHandle _ m.chunkHandle = _
      rw [fupdN_self]
  · intro h' hsome
    by_cases hh : h' = m.chunkHandle
    · exact ⟨p, i, by simp [hh]⟩
    · rw [show ({ m with
          chunkHandle := (m.chunkHandle + 1) % 2 ^ 64
          chunks := fupdS m.chunks p
            (some (fupdN ((m.chunks p).getD emptyInner) i
              (some { ChunkHandle := m.chunkHandle })))
          handles := fupdN m.handles m.chunkHandle
            (some { Path := p, Index := i })
          locations := fupdN m.locations m.chunkHandle
            (some { Handle := m.chunkHandle, Locations := info.Locations }) }
            : ChunkManager).handles h' = m.handles h' from fupdN_ne _ _ hh] at hsome
      obtain ⟨p', i', hmem⟩ := h2 h' hsome
      exact ⟨p', i', List.mem_append_left _ hmem⟩
  · intro p' i' h' hmem
    show h' < (m.chunkHandle + 1) % 2 ^ 64
    rw [hmod]
    rcases List.mem_append.mp hmem with hmem | hmem
    · exact Nat.lt_succ_of_lt (h3 p' i' h' hmem)
    · obtain ⟨-, -, hh⟩ : p' = p ∧ i' = i ∧ h' = m.chunkHandle := by
        simpa [Prod.ext_iff] using List.mem_singleton.mp hmem
      omega
  · show (m.chunkHandle + 1) % 2 ^ 64 = _
    rw [hmod, List.length_append, List.length_singleton, h4]
  · rw [List.map_append]
    refine List.pairwise_append.mpr ⟨h5, by simp, ?_⟩
    intro x hx y hy
    obtain ⟨t, ht, hxt⟩ := List.mem_map.mp hx
    have hyc : y = m.chunkHandle := by simpa using hy
    subst hxt
    rw [hyc]
    exact h3 t.1 t.2.1 t.2.2 ht

theorem regInv_setLoc {m : ChunkManager} {as : List (String × Nat × Nat)}
    (hinv : RegInv m as) (h : Nat) (a : String) :
    RegInv (SetChunkLocation m h a).1 as :=
  hinv

theorem runAcc_regInv :
    ∀ (ops : List Op) (m : ChunkManager) (as : List (String × Nat × Nat)),
      RegInv m as → m.chunkHandle + ops.length < 2 ^ 64 →
      ∀ r, runAcc m ops = some r → RegInv r.1 (as ++ r.2) := by
  intro ops
  induction ops with
  | nil =>
    intro m as hinv _ r hr
    simp only [runAcc] at hr
    cases hr
    simpa using hinv
  | cons op rest ih =>
    intro m as hinv hlen r hr
    cases op with
    | setLoc h a =>
      simp only [runAcc] at hr
      have hlen1 : (SetChunkLocation m h a).1.chunkHandle + rest.length < 2 ^ 64 := by
        rw [setLoc_chunkHandle]
        simp only [List.length_cons] at hlen
        omega
      exact ih _ as (regInv_setLoc hinv h a) hlen1 r hr
    | add p i perm =>
      simp only [runAcc] at hr
      cases hac : addChunk m p i perm with
      | conflict m1 =>
        rw [hac] at hr
        obtain ⟨heq, -⟩ := addChunk_conflict_eq hac
        subst heq
        refine ih _ as hinv ?_ r hr
        simp only [List.length_cons] at hlen
        omega
      | panic =>
        rw [hac] at hr
        exact absurd hr (by simp)
      | ok info m1 =>
        rw [hac] at hr
        have hr2 : Option.map (fun r0 => (r0.1, (p, i, info.Handle) :: r0.2))
            (runAcc m1 rest) = some r := hr
        cases hrr : runAcc m1 rest with
        | none =>
          rw [hrr] at hr2
          exact absurd hr2 (by simp)
        | some r1 =>
          rw [hrr] at hr2
          simp only [Option.map_some'] at hr2
          cases hr2
          have hlt : m.chunkHandle + 1 < 2 ^ 64 := by
            simp only [List.length_cons] at hlen
            omega
          have hcnt1 : m1.chunkHandle = m.chunkHandle + 1 := by
            obtain ⟨-, -, -, hm⟩ := addChunk_ok_eq hac
            subst hm
            exact Nat.mod_eq_of_lt hlt
          have hrec := ih m1 (as ++ [(p, i, info.Handle)])
            (regInv_addChunk_ok hinv hlt hac)
            (by rw [hcnt1]; simp only [List.length_cons] at hlen; omega) r1 hrr
          simpa using hrec

/-! ### Preservation of the location-seeding invariant -/

theorem locInv_init (servers : List String) : LocInv (NewChunkManager servers) := by
  intro p i c hc
  simp [chunkAt, NewChunkManager] at hc

theorem locInv_addChunk_ok {m : ChunkManager} {p : String} {i : Nat}
    {perm : List Nat} {info : ChunkInfo} {m1 : ChunkManager}
    (hinv : LocInv m) (h : addChunk m p i perm = .ok info m1) : LocInv m1 := by
  intro p' i' c hc
  rw [chunkAt_addChunk_ok h p' i'] at hc
  obtain ⟨-, -, -, hm⟩ := addChunk_ok_eq h
  by_cases hcond : p' = p ∧ i' = i
  · rw [if_pos hcond] at hc
    cases hc
    subst hm
    simp [fupdN_self]
  · rw [if_neg hcond] at hc
    have hold := hinv p' i' c hc
    subst hm
    by_cases hh : c.ChunkHandle = m.chunkHandle
    · simp [hh, fupdN_self]
    · show (fupdN m.locations m.chunkHandle _ c.ChunkHandle).isSome
      rw [fupdN_ne _ _ hh]
      exact hold

theorem locInv_setLoc {m : ChunkManager} (hinv : LocInv m) (h : Nat) (a : String) :
    LocInv (SetChunkLocation m h a).1 := by
  intro p' i' c hc
  have hold := hinv p' i' c hc
  cases hl : m.locations h with
  | some info =>
    rw [setLoc_locations_some a hl]
    by_cases hh : c.ChunkHandle = h
    · simp [hh, fupdN_self]
    · rw [fupdN_ne _ _ hh]
      exact hold
  | none =>
    rw [setLoc_locations_none a hl]
    by_cases hh : c.ChunkHandle = h
    · simp [hh, fupdN_self]
    · rw [fupdN_ne _ _ hh]
      exact hold

theorem runAcc_locInv :
    ∀ (ops : List Op) (m : ChunkManager), LocInv m →
      ∀ r, runAcc m ops = some r → LocInv r.1 := by
  intro ops
  induction ops with
  | nil =>
    intro m hinv r hr
    simp only [runAcc] at hr
    cases hr
    exact hinv
  | cons op rest ih =>
    intro m hinv r hr
    cases op with
    | setLoc h a =>
      simp only [runAcc] at hr
      exact ih _ (locInv_setLoc hinv h a) r hr
    | add p i perm =>
      simp only [runAcc] at hr
      cases hac : addChunk m p i perm with
      | conflict m1 =>
        rw [hac] at hr
        obtain ⟨heq, -⟩ := addChunk_conflict_eq hac
        subst heq
        exact ih _ hinv r hr
      | panic =>
        rw [hac] at hr
        exact absurd hr (by simp)
      | ok info m1 =>
        rw [hac] at hr
        have hr2 : Option.map (fun r0 => (r0.1, (p, i, info.Handle) :: r0.2))
            (runAcc m1 rest) = some r := hr
        cases hrr : runAcc m1 rest with
        | none =>
          rw [hrr] at hr2
          exact absurd hr2 (by simp)
        | some r1 =>
          rw [hrr] at hr2
          simp only [Option.map_some'] at hr2
          cases hr2
          exact ih m1 (locInv_addChunk_ok hinv hac) r1 hrr

/-! ### Preservation of duplicate-freedom of location lists -/

theorem insert_nodup {l : List String} {a : String} (h : l.Nodup) :
    (insert l a).Nodup := by
  unfold insert
  split
  · exact h
  · next ha =>
    refine List.nodup_append.mpr ⟨h, List.nodup_singleton a, ?_⟩
    intro x hx hmem
    rcases List.mem_singleton.mp hmem with rfl
    exact ha hx

theorem nodupInv_init (servers : List String) : NodupInv (NewChunkManager servers) := by
  intro h info hl
  exact absurd hl (by simp [NewChunkManager])

theorem nodupInv_addChunk_ok {m : ChunkManager} {p : String} {i : Nat}
    {perm : List Nat} {info : ChunkInfo} {m1 : ChunkManager}
    (hA : m.chunkServers.Nodup) (hperm : perm.Perm (List.range m.chunkServers.length))
    (hinv : NodupInv m) (h : addChunk m p i perm = .ok info m1) : NodupInv m1 := by
  obtain ⟨-, hr, -, hm⟩ := addChunk_ok_eq h
  have hpermN : perm.Nodup := hperm.symm.nodup (List.nodup_range _)
  have hlocs : info.Locations.Nodup := random_nodup _ hA 3 perm hpermN _ hr
  subst hm
  intro h' info' hl'
  by_cases hh : h' = m.chunkHandle
  · subst hh
    have hl2 : fupdN m.locations m.chunkHandle
        (some { Handle := m.chunkHandle, Locations := info.Locations })
        m.chunkHandle = some info' := hl'
    rw [fupdN_self] at hl2
    cases hl2
    exact hlocs
  · have hl2 : fupdN m.locations m.chunkHandle
        (some { Handle := m.chunkHandle, Locations := info.Locations })
        h' = some info' := hl'
    rw [fupdN_ne _ _ hh] at hl2
    exact hinv h' info' hl2

theorem nodupInv_setLoc {m : ChunkManager} (hinv : NodupInv m) (h : Nat) (a : String) :
    NodupInv (SetChunkLocation m h a).1 := by
  intro h' info' hl'
  cases hl : m.locations h with
  | some info =>
    rw [setLoc_locations_some a hl] at hl'
    by_cases hh : h' = h
    · subst hh
      rw [fupdN_self] at hl'
      cases hl'
      exact insert_nodup (hinv _ info hl)
    · rw [fupdN_ne _ _ hh] at hl'
      exact hinv h' info' hl'
  | none =>
    rw [setLoc_locations_none a hl] at hl'
    by_cases hh : h' = h
    · subst hh
      rw [fupdN_self] at hl'
      cases hl'
      exact List.nodup_singleton a
    · rw [fupdN_ne _ _ hh] at hl'
      exact hinv h' info' hl'

theorem runAcc_nodupInv :
    ∀ (ops : List Op) (m : ChunkManager), m.chunkServers.Nodup →
      (∀ op ∈ ops, permOk op m.chunkServers.length) → NodupInv m →
      ∀ r, runAcc m ops = some r → NodupInv r.1 := by
  intro ops
  induction ops with
  | nil =>
    intro m _ _ hinv r hr
    simp only [runAcc] at hr
    cases hr
    exact hinv
  | cons op rest ih =>
    intro m hA hops hinv r hr
    cases op with
    | setLoc h a =>
      simp only [runAcc] at hr
      refine ih (SetChunkLocation m h a).1 hA ?_ (nodupInv_setLoc hinv h a) r hr
      intro op hop
      exact hops op (List.mem_cons_of_mem _ hop)
    | add p i perm =>
      simp only [runAcc] at hr
      have hperm : perm.Perm (List.range m.chunkServers.length) :=
        hops _ (List.mem_cons_self _ _)
      cases hac : addChunk m p i perm with
      | conflict m1 =>
        rw [hac] at hr
        obtain ⟨heq, -⟩ := addChunk_conflict_eq hac
        subst heq
        refine ih _ hA ?_ hinv r hr
        intro op hop
        exact hops op (List.mem_cons_of_mem _ hop)
      | panic =>
        rw [hac] at hr
        exact absurd hr (by simp)
      | ok info m1 =>
        rw [hac] at hr
        have hr2 : Option.map (fun r0 => (r0.1, (p, i, info.Handle) :: r0.2))
            (runAcc m1 rest) = some r := hr
        cases hrr : runAcc m1 rest with
        | none =>
          rw [hrr] at hr2
          exact absurd hr2 (by simp)
        | some r1 =>
          rw [hrr] at hr2
          simp only [Option.map_some'] at hr2
          cases hr2
          have hsrv : m1.chunkServers = m.chunkServers := by
            obtain ⟨-, -, -, hm⟩ := addChunk_ok_eq hac
            subst hm
            rfl
          refine ih m1 (hsrv ▸ hA) ?_
            (nodupInv_addChunk_ok hA hperm hinv hac) r1 hrr
          intro op hop
          rw [hsrv]
          exact hops op (List.mem_cons_of_mem _ hop)

/-! ### Lease extension frame lemma -/

theorem extendLease_foldl_frame (leases : Nat → Option LeaseInfo) (now dur : Nat)
    (addr : String) (h : Nat)
    (hnp : ∀ l, leases h = some l → l.primary ≠ addr) :
    ∀ (hs : List Nat) (ls : Nat → Option LeaseInfo), ls h = leases h →
      (hs.foldl (leaseStep now dur addr) ls) h = leases h := by
  intro hs
  induction hs with
  | nil => intro ls hls; exact hls
  | cons h0 rest ih =>
    intro ls hls
    simp only [List.foldl_cons]
    apply ih
    unfold leaseStep
    cases hl0 : ls h0 with
    | none => exact hls
    | some l =>
      show (if l.primary = addr then fupdN ls h0 (some { l with expiration := now + dur }) else ls) h = leases h
      by_cases hpr : l.primary = addr
      · rw [if_pos hpr]
        by_cases hh : h = h0
        · exfalso
          apply hnp l ?_ hpr
          rw [← hls, hh]
          exact hl0
        · rw [fupdN_ne _ _ hh]
          exact hls
      · rw [if_neg hpr]
        exact hls

/-! ### ReportChunk monotonicity lemmas -/

theorem reportChunk_mono {s : MasterState} (handle : Nat) (server : String)
    (length : Int) {path : String} {cur : Int}
    (hcur : s.fileLengths path = some cur) :
    ∃ mid, (reportChunk s handle server length).1.fileLengths path = some mid ∧
      cur ≤ mid := by
  cases hgp : GetPathIndexFromHandle s.cm handle with
  | error e =>
    refine ⟨cur, ?_, le_refl cur⟩
    simp only [reportChunk, hgp]
    exact hcur
  | ok pathIndex =>
    cases hfl : s.fileLengths pathIndex.Path with
    | none =>
      refine ⟨cur, ?_, le_refl cur⟩
      simp only [reportChunk, hgp, hfl]
      exact hcur
    | some fl =>
      by_cases hlt : fl < wrap64i (toInt64 (ChunkSize * pathIndex.Index) + length)
      · by_cases hp : path = pathIndex.Path
        · subst hp
          have hfc : fl = cur := by
            rw [hcur] at hfl
            exact (Option.some_inj.mp hfl).symm
          subst hfc
          refine ⟨wrap64i (toInt64 (ChunkSize * pathIndex.Index) + length), ?_,
            le_of_lt hlt⟩
          simp only [reportChunk, hgp, hfl, if_pos hlt]
          exact fupdS_self _ _ _
        · refine ⟨cur, ?_, le_refl cur⟩
          simp only [reportChunk, hgp, hfl, if_pos hlt]
          rw [fupdS_ne _ _ hp]
          exact hcur
      · refine ⟨cur, ?_, le_refl cur⟩
        simp only [reportChunk, hgp, hfl, if_neg hlt]
        exact hcur

theorem runReports_mono :
    ∀ (calls : List (Nat × String × Int)) (s : MasterState) (path : String)
      (cur : Int), s.fileLengths path = some cur →
      ∃ fl, (runReports s calls).fileLengths path = some fl ∧ cur ≤ fl := by
  intro calls
  induction calls with
  | nil =>
    intro s path cur hcur
    exact ⟨cur, hcur, le_refl cur⟩
  | cons c rest ih =>
    intro s path cur hcur
    obtain ⟨mid, hmid, hle⟩ := reportChunk_mono c.1 c.2.1 c.2.2 hcur
    obtain ⟨fl, hfl, hle2⟩ := ih _ path mid hmid
    refine ⟨fl, ?_, le_trans hle hle2⟩
    simpa [runReports] using hfl

/-! ### Claim theorems -/

/-- Claim C1: for every sequence of successful AddChunk calls with distinct
(path, chunk index) pairs, the returned chunk handles are pairwise unique and
strictly increasing, and after every operation the registry's handle counter
is strictly greater than every allocated handle.  (The uint64 handle counter
requires the trace to be shorter than 2^64 calls.) -/
theorem addChunk_handles_strictly_increasing (servers : List String) (ops : List Op)
    (hadds : ∀ op ∈ ops, op.isAdd = true)
    (hdist : (addPairs ops).Pairwise (· ≠ ·))
    (hlen : ops.length < 2 ^ 64)
    (hsucc : (runAcc (NewChunkManager servers) ops).map (fun r => r.2.length) =
      some ops.length) :
    ∀ k : Nat, C1post (runAcc (NewChunkManager servers) (ops.take k)) := by
  intro k
  cases hr : runAcc (NewChunkManager servers) (ops.take k) with
  | none => trivial
  | some r =>
    obtain ⟨m1, as⟩ := r
    have hinv := runAcc_regInv (ops.take k) (NewChunkManager servers) []
      (regInv_init servers)
      (by simp only [NewChunkManager, List.length_take]; omega)
      (m1, as) hr
    obtain ⟨-, -, h3, -, h5⟩ := hinv
    exact ⟨h5, fun t ht => h3 t.1 t.2.1 t.2.2 ht⟩

theorem addChunk_handles_strictly_increasing_witness :
    C1post (runAcc (NewChunkManager ["A", "B", "C"]) (demoOps.take 2)) :=
  addChunk_handles_strictly_increasing ["A", "B", "C"] demoOps
    (by decide) (by decide) (by decide) (by rfl) 2

/-- Claim C2: calling AddChunk on an already-mapped (path, index) pair fails
with the conflict error and leaves the registry state (handle counter,
chunk map, inverse map, location map) exactly unchanged. -/
theorem addChunk_existing_pair_conflict_unchanged (m : ChunkManager) (p : String)
    (i : Nat) (perm : List Nat) (inner : Nat → Option Chunk) (c : Chunk)
    (h1 : m.chunks p = some inner) (h2 : inner i = some c) :
    addChunk m p i perm = .conflict m := by
  simp only [addChunk, h1, Option.getD_some, h2]

theorem addChunk_existing_pair_conflict_unchanged_witness :
    addChunk exampleCM "/f" 0 [0, 1, 2] = .conflict exampleCM :=
  addChunk_existing_pair_conflict_unchanged exampleCM "/f" 0 [0, 1, 2]
    (fupdN (fun _ => none) 0 (some { ChunkHandle := 0 })) { ChunkHandle := 0 }
    rfl rfl

/-- Claim C3: Store followed by Load into a fresh registry reproduces the
identical durable triple: handle counter, chunk map, and inverse map. -/
theorem store_load_roundtrip (m : ChunkManager) (servers : List String) :
    (Load (NewChunkManager servers) (Store m)).chunkHandle = m.chunkHandle ∧
    (Load (NewChunkManager servers) (Store m)).chunks = m.chunks ∧
    (Load (NewChunkManager servers) (Store m)).handles = m.handles :=
  ⟨rfl, rfl, rfl⟩

/-- Claim C4: GetPathIndexFromHandle inverts allocation exactly: every handle
allocated along a Load-free trace resolves to its (path, index) pair, and
every handle never allocated fails with the handle-not-found error. -/
theorem getPathIndexFromHandle_inverse (servers : List String) (ops : List Op)
    (hlen : ops.length < 2 ^ 64) :
    C4post (runAcc (NewChunkManager servers) ops) := by
  cases hr : runAcc (NewChunkManager servers) ops with
  | none => trivial
  | some r =>
    obtain ⟨m1, as⟩ := r
    have hinv := runAcc_regInv ops (NewChunkManager servers) []
      (regInv_init servers)
      (by simpa [NewChunkManager] using hlen)
      (m1, as) hr
    obtain ⟨h1, h2, -, -, -⟩ := hinv
    refine ⟨?_, ?_⟩
    · intro p i h hmem
      have hh : m1.handles h = some { Path := p, Index := i } := h1 p i h hmem
      simp [GetPathIndexFromHandle, hh]
    · intro h hnot
      cases hh : m1.handles h with
      | none => simp [GetPathIndexFromHandle, hh]
      | some pathIndex =>
        exfalso
        obtain ⟨p, i, hmem⟩ := h2 h (by simp [hh])
        exact hnot p i hmem

theorem getPathIndexFromHandle_inverse_witness :
    C4post (runAcc (NewChunkManager ["A", "B", "C"]) demoOps) :=
  getPathIndexFromHandle_inverse ["A", "B", "C"] demoOps (by decide)

/-- Claim C5 counterexample: with only two registered chunkservers (fewer
than the replication factor 3) and a fresh (path, index) pair, AddChunk does
not return an error: it panics inside random (index out of range). -/
theorem addChunk_insufficient_servers_crashes :
    addChunk (NewChunkManager ["A", "B"]) "/f" 0 [0, 1] = .panic := rfl

/-- Claim C5 (amended): AddChunk on a registry with fewer than 3 registered
chunkserver addresses panics (index out of range in random) rather than
returning an error; on a registry with at least 3 duplicate-free registered
addresses it succeeds and returns exactly 3 distinct addresses drawn from the
registered list. -/
theorem addChunk_replication_vs_cluster_size (m : ChunkManager) (p : String)
    (i : Nat) (perm : List Nat)
    (hperm : perm.Perm (List.range m.chunkServers.length))
    (hnew : chunkAt m p i = none) :
    (m.chunkServers.length < 3 → addChunk m p i perm = .panic) ∧
    (3 ≤ m.chunkServers.length → m.chunkServers.Nodup →
      ∃ info m1, addChunk m p i perm = .ok info m1 ∧
        info.Locations.length = 3 ∧ info.Locations.Nodup ∧
        ∀ x ∈ info.Locations, x ∈ m.chunkServers) := by
  constructor
  · intro hlt3
    have hplen : perm.length < 3 := by
      have hpl := hperm.length_eq
      simp only [List.length_range] at hpl
      omega
    have hrand := random_none_of_short m.chunkServers 3 perm hplen
    cases hmp : m.chunks p with
    | none =>
      simp [addChunk, hmp, fupdS_self, emptyInner, hrand]
    | some inn =>
      have hinn : inn i = none := by simpa [chunkAt, hmp] using hnew
      simp [addChunk, hmp, hinn, hrand]
  · intro h3le hnodup
    have hvalid : ∀ j ∈ perm, j < m.chunkServers.length := by
      intro j hj
      simpa using hperm.subset hj
    have hlen3 : 3 ≤ perm.length := by
      have hpl := hperm.length_eq
      simp only [List.length_range] at hpl
      omega
    obtain ⟨locs, hlocs⟩ := random_some_of_valid m.chunkServers 3 perm hvalid hlen3
    have hpermN : perm.Nodup := hperm.symm.nodup (List.nodup_range _)
    have hok : ∃ m1, addChunk m p i perm =
        .ok { Handle := m.chunkHandle, Locations := locs } m1 := by
      cases hmp : m.chunks p with
      | none =>
        simp only [addChunk, hmp, fupdS_self, Option.getD_some]
        rw [show emptyInner i = none from rfl, hlocs]
        exact ⟨_, rfl⟩
      | some inn =>
        have hinn : inn i = none := by simpa [chunkAt, hmp] using hnew
        simp only [addChunk, hmp, Option.getD_some]
        rw [hinn, hlocs]
        exact ⟨_, rfl⟩
    obtain ⟨m1, hok⟩ := hok
    exact ⟨{ Handle := m.chunkHandle, Locations := locs }, m1, hok,
      random_length _ 3 perm locs hlocs,
      random_nodup _ hnodup 3 perm hpermN locs hlocs,
      random_mem _ 3 perm locs hlocs⟩

theorem addChunk_replication_vs_cluster_size_witness :
    ((NewChunkManager ["A", "B", "C"]).chunkServers.length < 3 →
      addChunk (NewChunkManager ["A", "B", "C"]) "/f" 0 [0, 1, 2] = .panic) ∧
    (3 ≤ (NewChunkManager ["A", "B", "C"]).chunkServers.length →
      (NewChunkManager ["A", "B", "C"]).chunkServers.Nodup →
      ∃ info m1,
        addChunk (NewChunkManager ["A", "B", "C"]) "/f" 0 [0, 1, 2] = .ok info m1 ∧
        info.Locations.length = 3 ∧ info.Locations.Nodup ∧
        ∀ x ∈ info.Locations, x ∈ (NewChunkManager ["A", "B", "C"]).chunkServers) :=
  addChunk_replication_vs_cluster_size (NewChunkManager ["A", "B", "C"]) "/f" 0
    [0, 1, 2] (List.Perm.refl _) rfl

/-- Claim C6 counterexample: a state reachable by registry operations
including Store followed by Load (allocate ("/f", 0), snapshot, reload into a
fresh registry) still holds the ChunkRecord for ("/f", 0) yet FindLocations
fails with the locations-unavailable error, because Load restores only the
durable triple and location entries are volatile. -/
theorem findLocations_unavailable_after_reload :
    (resState (addChunk (NewChunkManager ["A", "B", "C"]) "/f" 0 [0, 1, 2])).map
        (fun m1 =>
          FindLocations (Load (NewChunkManager ["A", "B", "C"]) (Store m1)) "/f" 0)
      = some (.error "Locations not available.") ∧
    (resState (addChunk (NewChunkManager ["A", "B", "C"]) "/f" 0 [0, 1, 2])).map
        (fun m1 =>
          chunkAt (Load (NewChunkManager ["A", "B", "C"]) (Store m1)) "/f" 0)
      = some (some { ChunkHandle := 0 }) :=
  ⟨rfl, rfl⟩

/-- Claim C6 (amended): in every state reachable from a fresh registry by
AddChunk and SetChunkLocation operations (no Load), every (path, index) pair
holding a ChunkRecord has a seeded location entry, so FindLocations succeeds
and in particular never fails with the locations-unavailable error.  After
Load into a fresh registry the location entries are absent (they are volatile
and rebuilt from chunkserver reports), so the guarantee does not extend
across Store followed by Load. -/
theorem findLocations_succeeds_without_reload (servers : List String)
    (ops : List Op) : C6post (runAcc (NewChunkManager servers) ops) := by
  cases hr : runAcc (NewChunkManager servers) ops with
  | none => trivial
  | some r =>
    obtain ⟨m1, as⟩ := r
    have hinv := runAcc_locInv ops (NewChunkManager servers) (locInv_init servers)
      (m1, as) hr
    intro p i c hc
    have hsome := hinv p i c hc
    obtain ⟨inner, hip, hii⟩ : ∃ inner, m1.chunks p = some inner ∧ inner i = some c := by
      cases hmp : m1.chunks p with
      | none => simp [chunkAt, hmp] at hc
      | some inn => exact ⟨inn, rfl, by simpa [chunkAt, hmp] using hc⟩
    cases hloc : m1.locations c.ChunkHandle with
    | none =>
      rw [hloc] at hsome
      exact absurd hsome (by simp)
    | some ci =>
      exact ⟨ci, by simp [FindLocations, getChunkInfo, hip, hii, hloc]⟩

/-- Claim C7: ExtendLease changes a handle's lease only when the requesting
address is that handle's current primary; for any handle whose primary is not
the requesting address (or which has no lease) the lease state is completely
unchanged, and no error is reported (the operation is total). -/
theorem extendLease_nonprimary_untouched (leases : Nat → Option LeaseInfo)
    (now dur : Nat) (addr : String) (hs : List Nat) (h : Nat)
    (hnp : ∀ l, leases h = some l → l.primary ≠ addr) :
    extendLease leases now dur addr hs h = leases h :=
  extendLease_foldl_frame leases now dur addr h hnp hs leases rfl

theorem extendLease_nonprimary_untouched_witness :
    extendLease exampleLeases 200 60 "B" [0] 0 = exampleLeases 0 :=
  extendLease_nonprimary_untouched exampleLeases 200 60 "B" [0] 0
    (by
      intro l hl
      have hl2 : some { primary := "A", replicas := ["A", "B", "C"], expiration := 100 } = some l := hl
      cases hl2
      decide)

/-- Claim C8: ReportChunk raises the file's recorded length to
chunkIndex * ChunkSize + length (computed in int64 machine arithmetic, as the
code does) exactly when that value strictly exceeds the currently recorded
length, and a recorded file length never decreases under any sequence of
ReportChunk calls. -/
theorem reportChunk_updates_only_on_growth :
    (∀ (s : MasterState) (handle : Nat) (server : String) (length : Int)
        (pathIndex : PathIndex) (cur : Int),
        GetPathIndexFromHandle s.cm handle = .ok pathIndex →
        s.fileLengths pathIndex.Path = some cur →
        (reportChunk s handle server length).1.fileLengths pathIndex.Path =
          some (if cur < wrap64i (toInt64 (ChunkSize * pathIndex.Index) + length)
            then wrap64i (toInt64 (ChunkSize * pathIndex.Index) + length)
            else cur)) ∧
    (∀ (s : MasterState) (calls : List (Nat × String × Int)) (path : String)
        (cur : Int), s.fileLengths path = some cur →
        ∃ fl, (runReports s calls).fileLengths path = some fl ∧ cur ≤ fl) := by
  constructor
  · intro s handle server length pathIndex cur hgp hcur
    by_cases hlt : cur < wrap64i (toInt64 (ChunkSize * pathIndex.Index) + length) <;>
      simp [reportChunk, hgp, hcur, hlt, fupdS_self]
  · intro s calls path cur hcur
    exact runReports_mono calls s path cur hcur

theorem reportChunk_updates_only_on_growth_witness :
    (reportChunk exampleMS 0 "D" 1000).1.fileLengths "/f" =
      some (if (0 : Int) < wrap64i (toInt64 (ChunkSize * 0) + 1000)
        then wrap64i (toInt64 (ChunkSize * 0) + 1000) else 0) ∧
    (∃ fl, (runReports exampleMS [(0, "D", 1000)]).fileLengths "/f" = some fl ∧
      (0 : Int) ≤ fl) :=
  ⟨reportChunk_updates_only_on_growth.1 exampleMS 0 "D" 1000
      { Path := "/f", Index := 0 } 0 rfl rfl,
   reportChunk_updates_only_on_growth.2 exampleMS [(0, "D", 1000)] "/f" 0 rfl⟩

/-- Claim C9: every replica location list in the registry is duplicate-free
after any sequence of AddChunk and SetChunkLocation operations (on a
duplicate-free registered server list with genuine permutations), and
SetChunkLocation is idempotent: inserting an address already present in the
handle's location set leaves the registry state unchanged. -/
theorem replica_sets_nodup_and_idempotent :
    (∀ (servers : List String) (ops : List Op), servers.Nodup →
      (∀ op ∈ ops, permOk op servers.length) →
      C9post (runAcc (NewChunkManager servers) ops)) ∧
    (∀ (m : ChunkManager) (h : Nat) (a : String) (info : ChunkInfo),
      m.locations h = some info → a ∈ info.Locations →
      (SetChunkLocation m h a).1 = m) := by
  constructor
  · intro servers ops hnd hops
    cases hr : runAcc (NewChunkManager servers) ops with
    | none => trivial
    | some r =>
      obtain ⟨m1, as⟩ := r
      exact runAcc_nodupInv ops (NewChunkManager servers) hnd hops
        (nodupInv_init servers) (m1, as) hr
  · intro m h a info hl ha
    have hins : insert info.Locations a = info.Locations := by
      simp [insert, ha]
    have hfun : fupdN m.locations h (some { info with Locations := insert info.Locations a }) = m.locations := by
      funext q
      by_cases hq : q = h
      · subst hq
        rw [fupdN_self, hins, hl]
      · rw [fupdN_ne _ _ hq]
    have hstate : (SetChunkLocation m h a).1 = { m with locations := fupdN m.locations h (some { info with Locations := insert info.Locations a }) } := by
      simp [SetChunkLocation, hl]
    rw [hstate, hfun]

theorem replica_sets_nodup_and_idempotent_witness :
    C9post (runAcc (NewChunkManager ["A", "B", "C"]) [Op.add "/f" 0 [0, 1, 2]]) ∧
    (SetChunkLocation exampleCM 0 "A").1 = exampleCM :=
  ⟨replica_sets_nodup_and_idempotent.1 ["A", "B", "C"] [Op.add "/f" 0 [0, 1, 2]]
      (by decide)
      (by
        intro op hop
        simp only [List.mem_singleton] at hop
        subst hop
        exact List.Perm.refl _),
   replica_sets_nodup_and_idempotent.2 exampleCM 0 "A"
      { Handle := 0, Locations := ["A", "B", "C"] } rfl (by decide)⟩

/-- Claim C10: SetChunkLocation never returns an error; called with a handle
that was never allocated it silently creates a fresh location entry holding
only the given address, while the chunk map and the inverse map are left
unchanged (so a location entry can exist with no chunk record or inverse-map
entry). -/
theorem setChunkLocation_total_and_creates (m : ChunkManager) (h : Nat)
    (a : String) :
    (SetChunkLocation m h a).2 = none ∧
    (m.locations h = none →
      (SetChunkLocation m h a).1.locations h = some { Handle := h, Locations := [a] } ∧
      (SetChunkLocation m h a).1.chunks = m.chunks ∧
      (SetChunkLocation m h a).1.handles = m.handles) := by
  refine ⟨rfl, ?_⟩
  intro hl
  refine ⟨?_, rfl, rfl⟩
  rw [setLoc_locations_none a hl, fupdN_self]

theorem setChunkLocation_total_and_creates_witness :
    (SetChunkLocation (NewChunkManager []) 5 "A").2 = none ∧
    (SetChunkLocation (NewChunkManager []) 5 "A").1.locations 5 =
      some { Handle := 5, Locations := ["A"] } :=
  ⟨(setChunkLocation_total_and_creates (NewChunkManager []) 5 "A").1,
   ((setChunkLocation_total_and_creates (NewChunkManager []) 5 "A").2 rfl).1⟩

end SimpleGFS
